import Mathlib

/-!
Verification of the mcp-youtube-transcript server core
(`src/mcp_youtube_transcript/__init__.py`): URL-to-video-id resolution
(lines 131-138), the language fallback list (lines 77-80), and the
transcript pagination logic of the `get_transcript` tool (lines
142-153).  The file also models the pieces of the Python standard
library this code calls: `urllib.parse.urlparse` / `parse_qs`,
`str.lstrip`, string slicing `s[:-1]`, and `int()`.  Python strings are
modelled as Lean `String`s (both are sequences of code points, and
Python's `len` counts code points exactly like `String.length`).
-/

namespace YT

/-- Python `s[:-1]`: drop the final code point (identity on `""`). -/
def pyDropLast (s : String) : String := ⟨s.data.dropLast⟩

/-- Python `sep.join(xs)`. -/
def pyJoin (sep : String) : List String → String
  | [] => ""
  | [x] => x
  | x :: y :: xs => x ++ sep ++ pyJoin sep (y :: xs)

/-- One caption line's contribution to the packed response: the line
plus the joining newline appended by the loop body. -/
def lineCost (l : String) : Nat := l.length + 1

/-- The accumulator shape built by `res += f"{line}\n"`: every listed
line followed by one newline. -/
def catNL : List String → String
  | [] => ""
  | x :: xs => x ++ "\n" ++ catNL xs

/-- Decimal digit character (only applied to values below 10). -/
def digitChar : Nat → Char
  | 0 => '0' | 1 => '1' | 2 => '2' | 3 => '3' | 4 => '4'
  | 5 => '5' | 6 => '6' | 7 => '7' | 8 => '8' | _ => '9'

/-- Fuel-driven decimal expansion of a natural number; fuel `n + 1`
always suffices because the value shrinks by a factor of ten each
step. -/
def natDigitsAux : Nat → Nat → List Char
  | 0, _ => []
  | fuel + 1, n =>
    if n < 10 then [digitChar n]
    else natDigitsAux fuel (n / 10) ++ [digitChar (n % 10)]

/-- Model of Python `str(i)` for the nonnegative loop index of line 149. -/
def strOfNat (n : Nat) : String := ⟨natDigitsAux (n + 1) n⟩

/-- Whitespace stripped by Python `int()` (ASCII fragment). -/
def isPySpace (c : Char) : Bool := c == ' ' || (9 ≤ c.toNat && c.toNat ≤ 13)

def trimWS (cs : List Char) : List Char :=
  ((cs.dropWhile isPySpace).reverse.dropWhile isPySpace).reverse

/-- Tail of a digit run with single underscores allowed between digits
(Python integer-literal grouping); returns the digits with the
underscores removed. -/
def usTail : List Char → Option (List Char)
  | [] => some []
  | c :: rest =>
    if c == '_' then
      match rest with
      | c2 :: rest2 => if c2.isDigit then (usTail rest2).map (fun l => c2 :: l) else none
      | [] => none
    else if c.isDigit then (usTail rest).map (fun l => c :: l) else none

/-- A full digit run (nonempty, starting with a digit). -/
def usDigits : List Char → Option (List Char)
  | [] => none
  | c :: rest => if c.isDigit then (usTail rest).map (fun l => c :: l) else none

/-- Value of a list of decimal digit characters. -/
def natVal (ds : List Char) : Nat := ds.foldl (fun a c => 10 * a + (c.toNat - 48)) 0

/-- Model of Python `int(s)` on strings (ASCII decimal literals with an
optional sign, surrounding whitespace and underscore grouping);
`none` models the raised `ValueError`. -/
def pyIntParse (s : String) : Option Int :=
  match trimWS s.data with
  | [] => none
  | c :: rest =>
    if c == '+' then (usDigits rest).map (fun ds => (natVal ds : Int))
    else if c == '-' then (usDigits rest).map (fun ds => -(natVal ds : Int))
    else (usDigits (c :: rest)).map (fun ds => (natVal ds : Int))

/-- Split a list at the first character satisfying `p`; the second
component starts with that character (or is empty when none does). -/
def breakc (p : Char → Bool) : List Char → List Char × List Char
  | [] => ([], [])
  | c :: cs =>
    if p c then ([], c :: cs)
    else
      let r := breakc p cs
      (c :: r.1, r.2)

def isSchemeChar (c : Char) : Bool := c.isAlphanum || c == '+' || c == '-' || c == '.'

/-- The `scheme:` split of `urllib.parse.urlsplit`: recognized only
when a colon occurs and the text before it is a nonempty run of scheme
characters starting with a letter. -/
def splitScheme (cs : List Char) : List Char × List Char :=
  let p := breakc (fun c => c == ':') cs
  match p.2 with
  | [] => ([], cs)
  | _ :: post =>
    match p.1 with
    | [] => ([], cs)
    | c :: pre =>
      if c.isAlpha && (c :: pre).all isSchemeChar then ((c :: pre).map Char.toLower, post)
      else ([], cs)

/-- The `//netloc` split of `urllib.parse.urlsplit`: when the rest
starts with two slashes, the netloc runs up to the next `/`, `?` or
`#`. -/
def splitNetloc : List Char → List Char × List Char
  | '/' :: '/' :: rest => breakc (fun c => c == '/' || c == '?' || c == '#') rest
  | cs => ([], cs)

/-- Split at the first occurrence of `d`, dropping the delimiter; the
second component is empty when `d` does not occur. -/
def breakDrop (d : Char) (cs : List Char) : List Char × List Char :=
  let p := breakc (fun c => c == d) cs
  (p.1, p.2.drop 1)

structure ParsedUrl where
  scheme : String
  netloc : String
  path : String
  query : String
  fragment : String
deriving Repr, DecidableEq

/-- Model of `urllib.parse.urlparse` restricted to the fields the
server reads (`hostname`, `path`, `query`). -/
def urlparse (url : String) : ParsedUrl :=
  let s := splitScheme url.data
  let n := splitNetloc s.2
  let f := breakDrop '#' n.2
  let q := breakDrop '?' f.1
  ⟨⟨s.1⟩, ⟨n.1⟩, ⟨q.1⟩, ⟨q.2⟩, ⟨f.2⟩⟩

/-- Model of the `hostname` property of a parse result: userinfo (up to
the last `@`) removed, bracketed IPv6 form unbracketed, otherwise the
part before the first `:`; lowercased, and `None` when empty. -/
def hostnameOf (netloc : List Char) : Option String :=
  let hostinfo := ((breakc (fun c => c == '@') netloc.reverse).1).reverse
  let host :=
    match hostinfo with
    | '[' :: rest => (breakc (fun c => c == ']') rest).1
    | _ => (breakc (fun c => c == ':') hostinfo).1
  if host.isEmpty then none else some ⟨host.map Char.toLower⟩

def urlHostname (u : ParsedUrl) : Option String := hostnameOf u.netloc.data

/-- Hexadecimal digit value, as accepted by `urllib.parse.unquote`. -/
def hexVal (c : Char) : Option Nat :=
  if 48 ≤ c.toNat && c.toNat ≤ 57 then some (c.toNat - 48)
  else if 65 ≤ c.toNat && c.toNat ≤ 70 then some (c.toNat - 55)
  else if 97 ≤ c.toNat && c.toNat ≤ 102 then some (c.toNat - 87)
  else none

/-- ASCII-level model of `urllib.parse.unquote_plus`: `+` becomes a
space, a valid `%XX` pair decodes to the character with that code, and
anything else is kept literally.  Fuel-driven (each step shortens the
input, so fuel equal to the length suffices; exhausted fuel returns
the input unchanged and is never reached from `unquotePlus`). -/
def unquotePlusAux : Nat → List Char → List Char
  | 0, l => l
  | _ + 1, [] => []
  | fuel + 1, c :: rest =>
    if c == '+' then ' ' :: unquotePlusAux fuel rest
    else if c == '%' then
      match rest with
      | a :: b :: rest2 =>
        match hexVal a, hexVal b with
        | some x, some y => Char.ofNat (16 * x + y) :: unquotePlusAux fuel rest2
        | _, _ => '%' :: unquotePlusAux fuel (a :: b :: rest2)
      | _ => '%' :: unquotePlusAux fuel rest
    else c :: unquotePlusAux fuel rest

def unquotePlus (l : List Char) : List Char := unquotePlusAux l.length l

/-- `qs.split('&')`, the field separator used by `parse_qs`. -/
def splitAmp : List Char → List (List Char)
  | [] => [[]]
  | c :: rest =>
    if c == '&' then [] :: splitAmp rest
    else
      match splitAmp rest with
      | [] => [[c]]
      | g :: gs => (c :: g) :: gs

/-- Split a field at its first `=`; `none` when it has no `=`. -/
def breakEq (cs : List Char) : Option (List Char × List Char) :=
  let p := breakc (fun c => c == '=') cs
  match p.2 with
  | [] => none
  | _ :: v => some (p.1, v)

/-- One `name=value` field of `urllib.parse.parse_qsl` under the
defaults used by `parse_qs`: fields without `=` and fields with a
blank value are dropped, names and values are unquoted. -/
def parseField (f : List Char) : Option (String × String) :=
  match breakEq f with
  | none => none
  | some (n, v) =>
    if v.isEmpty then none
    else some (⟨unquotePlus n⟩, ⟨unquotePlus v⟩)

def parse_qsl (query : String) : List (String × String) :=
  (splitAmp query.data).filterMap parseField

/-- `parse_qs(query).get(key)` followed by `[0]`: the first value
listed under `key`, or `none` when `get` returns `None`. -/
def qsFirst (query key : String) : Option String :=
  (((parse_qsl query).filter (fun p => p.1 == key)).head?).map Prod.snd

inductive PyError where
  | invalidUrl (url : String)
  | valueError
deriving Repr, DecidableEq

/-- Python `path.lstrip("/")`: remove every leading slash. -/
def lstripSlash (s : String) : String := ⟨s.data.dropWhile (fun c => c == '/')⟩

/-- Characters occurring in YouTube video identifiers (alphanumerics,
dash, underscore); used to state the supported-URL-shape property. -/
def idChar (c : Char) : Bool := c.isAlphanum || c == '-' || c == '_'

/-- Lines 131-138: video-id extraction from the request URL.
`.error (.invalidUrl url)` models the raised `ValueError` carrying the
original URL. -/
def resolveVideoId (url : String) : Except PyError String :=
  let p := urlparse url
  if urlHostname p = some "youtu.be" then .ok (lstripSlash p.path)
  else
    match qsFirst p.query "v" with
    | none => .error (.invalidUrl url)
    | some v => .ok v

/-- Lines 77-80: the language candidate list sent to the transcript
provider and the title fetch. -/
def languageCandidates (lang : String) : List String :=
  if lang = "en" then ["en"] else [lang, "en"]

/-- Lines 145-152: the packing loop over
`islice(enumerate(transcripts), start, None)`; `i` carries the
`enumerate` index and `res` the accumulated text. -/
def sliceAux (limit : Nat) : Nat → String → List String → String × Option Nat
  | _, res, [] => (res, none)
  | i, res, line :: rest =>
    if limit < res.length + line.length + 1 then (res, some i)
    else sliceAux limit (i + 1) (res ++ line ++ "\n") rest

/-- Lines 145-153 for a positive limit, before cursor stringification:
the chunk text `res[:-1]` and the break index. -/
def boundedSlice (limit : Nat) (transcripts : List String) (start : Nat) : String × Option Nat :=
  let p := sliceAux limit start "" (transcripts.drop start)
  (pyDropLast p.1, p.2)

/-- Line 147's `int(next_cursor or 0)` combined with `islice`'s
rejection of a negative start; `.error .valueError` models the raised
`ValueError`.  `None` and `""` are falsy, so both give start `0`. -/
def cursorIndex (next_cursor : Option String) : Except PyError Nat :=
  match next_cursor with
  | none => .ok 0
  | some s =>
    if s = "" then .ok 0
    else
      match pyIntParse s with
      | none => .error .valueError
      | some n => if n < 0 then .error .valueError else .ok n.toNat

/-- Lines 142-153: the transcript/cursor pair produced by one
`get_transcript` call, given the fetched caption lines (the title and
the network fetch are independent of this logic; the video id is fixed
by the URL, handled by `resolveVideoId`). -/
def get_transcript_page (response_limit : Option Int) (transcripts : List String)
    (next_cursor : Option String) : Except PyError (String × Option String) :=
  match response_limit with
  | none => .ok (pyJoin "\n" transcripts, none)
  | some l =>
    if l ≤ 0 then .ok (pyJoin "\n" transcripts, none)
    else
      match cursorIndex next_cursor with
      | .error e => .error e
      | .ok start =>
        let p := boundedSlice l.toNat transcripts start
        .ok (p.1, p.2.map strOfNat)

/-- Number of lines the packing loop absorbs from `ls` under budget
`B` (spec section 4.4: accumulate while the next line, plus its
newline, still fits). -/
def takeCount : Nat → List String → Nat
  | _, [] => 0
  | B, l :: rest => if lineCost l ≤ B then takeCount (B - lineCost l) rest + 1 else 0

def costSum (ls : List String) : Nat := (ls.map lineCost).sum

/-- Total packed size of the line range `[a, b)` of `ts`. -/
def segCost (ts : List String) (a b : Nat) : Nat := costSum ((ts.drop a).take (b - a))

/-- The claim's client loop: call, feed the returned cursor back into
the next call, stop when the cursor is absent; collects the transcript
chunks in call order.  `none` models a run that never reaches an
absent cursor (the returned cursor stops advancing).  Fuel
`ts.length + 1 - start` covers every advancing run. -/
def paginateAux (B : Nat) (ts : List String) : Nat → Nat → Option (List String)
  | 0, _ => none
  | fuel + 1, start =>
    let p := boundedSlice B ts start
    match p.2 with
    | none => some [p.1]
    | some j =>
      if start < j then (paginateAux B ts fuel j).map (fun rest => p.1 :: rest) else none

def paginateChunks (B : Nat) (ts : List String) (start : Nat) : Option (List String) :=
  paginateAux B ts (ts.length + 1 - start) start

/-! ### Basic string facts -/

theorem sappend_data (s t : String) : (s ++ t).data = s.data ++ t.data :=
  String.data_append s t

theorem sappend_assoc (a b c : String) : a ++ b ++ c = a ++ (b ++ c) :=
  String.ext (by simp [String.data_append])

theorem sappend_empty (s : String) : s ++ "" = s :=
  String.ext (by simp [String.data_append])

theorem sempty_append (s : String) : "" ++ s = s :=
  String.ext (by simp [String.data_append])

theorem mk_data (s : String) : (⟨s.data⟩ : String) = s := rfl

theorem slength_data (s : String) : s.length = s.data.length := rfl

/-! ### `catNL`, `pyDropLast`, `pyJoin` -/

theorem catNL_cons_data (x : String) (xs : List String) :
    (catNL (x :: xs)).data = x.data ++ '\n' :: (catNL xs).data := by
  show (x ++ "\n" ++ catNL xs).data = _
  simp [String.data_append]

theorem catNL_cons_ne_nil (x : String) (xs : List String) : (catNL (x :: xs)).data ≠ [] := by
  rw [catNL_cons_data]
  exact List.append_ne_nil_of_right_ne_nil _ (by simp)

theorem costSum_cons (x : String) (xs : List String) :
    costSum (x :: xs) = lineCost x + costSum xs := by
  simp [costSum]

theorem pyDropLast_empty : pyDropLast "" = "" := rfl

/-- `res[:-1]` undoes the trailing newline of the accumulator: removing
the last character of `catNL ls` yields the newline-joined lines. -/
theorem pyDropLast_catNL : ∀ ls : List String, pyDropLast (catNL ls) = pyJoin "\n" ls
  | [] => rfl
  | [x] => by
    apply String.ext
    show (catNL [x]).data.dropLast = x.data
    rw [catNL_cons_data]
    show (x.data ++ ['\n']).dropLast = x.data
    rw [List.dropLast_concat]
  | x :: y :: xs => by
    apply String.ext
    show (catNL (x :: y :: xs)).data.dropLast = (pyJoin "\n" (x :: y :: xs)).data
    rw [catNL_cons_data]
    rw [show x.data ++ '\n' :: (catNL (y :: xs)).data
        = (x.data ++ ['\n']) ++ (catNL (y :: xs)).data by simp]
    rw [List.dropLast_append_of_ne_nil _ (catNL_cons_ne_nil y xs)]
    have ih := congrArg String.data (pyDropLast_catNL (y :: xs))
    show (x.data ++ ['\n']) ++ (catNL (y :: xs)).data.dropLast
        = (x ++ "\n" ++ pyJoin "\n" (y :: xs)).data
    rw [show (catNL (y :: xs)).data.dropLast = (pyDropLast (catNL (y :: xs))).data from rfl, ih]
    simp [String.data_append]

theorem catNL_length : ∀ ls : List String, (catNL ls).length = costSum ls
  | [] => rfl
  | x :: xs => by
    show (x ++ "\n" ++ catNL xs).length = costSum (x :: xs)
    rw [String.length_append, String.length_append, catNL_length xs, costSum_cons]
    show x.length + 1 + costSum xs = lineCost x + costSum xs
    simp [lineCost]

theorem pyJoin_cons (sep x y : String) (xs : List String) :
    pyJoin sep (x :: y :: xs) = x ++ sep ++ pyJoin sep (y :: xs) := rfl

/-- Joining a concatenation of two nonempty line lists inserts exactly
one separator newline at the seam. -/
theorem pyJoin_append : ∀ (A B : List String), A ≠ [] → B ≠ [] →
    pyJoin "\n" (A ++ B) = pyJoin "\n" A ++ "\n" ++ pyJoin "\n" B
  | [], _, hA, _ => absurd rfl hA
  | [x], b :: bs, _, _ => rfl
  | x :: y :: xs, B, _, hB => by
    have ih := pyJoin_append (y :: xs) B (by simp) hB
    show x ++ "\n" ++ pyJoin "\n" ((y :: xs) ++ B)
        = (x ++ "\n" ++ pyJoin "\n" (y :: xs)) ++ "\n" ++ pyJoin "\n" B
    rw [ih]
    apply String.ext
    simp [String.data_append, List.append_assoc]

/-! ### The packing loop characterized by `takeCount` -/

theorem takeCount_le : ∀ (B : Nat) (ls : List String), takeCount B ls ≤ ls.length
  | _, [] => Nat.le_refl 0
  | B, l :: rest => by
    show (if lineCost l ≤ B then takeCount (B - lineCost l) rest + 1 else 0) ≤ rest.length + 1
    split
    · exact Nat.succ_le_succ (takeCount_le _ rest)
    · exact Nat.zero_le _

/-- The lines the loop absorbs always fit the budget in total. -/
theorem takeCount_sum : ∀ (B : Nat) (ls : List String), costSum (ls.take (takeCount B ls)) ≤ B
  | _, [] => by simp [takeCount, costSum]
  | B, l :: rest => by
    show costSum ((l :: rest).take (if lineCost l ≤ B then takeCount (B - lineCost l) rest + 1 else 0)) ≤ B
    split
    · next h =>
      rw [List.take_succ_cons, costSum_cons]
      have := takeCount_sum (B - lineCost l) rest
      omega
    · simp [costSum]

/-- When lines remain, absorbing one more line would overflow the
budget. -/
theorem takeCount_over : ∀ (B : Nat) (ls : List String), takeCount B ls < ls.length →
    B < costSum (ls.take (takeCount B ls + 1))
  | _, [], h => absurd h (by simp [takeCount])
  | B, l :: rest, h => by
    by_cases hl : lineCost l ≤ B
    · have ht : takeCount B (l :: rest) = takeCount (B - lineCost l) rest + 1 := by
        simp [takeCount, hl]
      rw [ht] at h ⊢
      rw [List.take_succ_cons, costSum_cons]
      have hr : takeCount (B - lineCost l) rest < rest.length := by
        simpa using h
      have := takeCount_over (B - lineCost l) rest hr
      omega
    · have ht : takeCount B (l :: rest) = 0 := by simp [takeCount, hl]
      rw [ht]
      show B < costSum ((l :: rest).take 1)
      rw [List.take_succ_cons, List.take_zero, costSum_cons]
      have : costSum ([] : List String) = 0 := rfl
      omega

/-- A fitting prefix whose extension overflows is exactly the absorbed
prefix: the loop stops at the first line that would overflow. -/
theorem takeCount_unique : ∀ (B m : Nat) (ls : List String), m < ls.length →
    costSum (ls.take m) ≤ B → B < costSum (ls.take (m + 1)) → m = takeCount B ls
  | _, _, [], h, _, _ => absurd h (by simp)
  | B, 0, l :: rest, _, _, hover => by
    rw [List.take_succ_cons, List.take_zero, costSum_cons] at hover
    have h0 : costSum ([] : List String) = 0 := rfl
    have hl : ¬ lineCost l ≤ B := by omega
    simp [takeCount, hl]
  | B, m + 1, l :: rest, hlt, hfit, hover => by
    rw [List.take_succ_cons, costSum_cons] at hfit
    rw [List.take_succ_cons, costSum_cons] at hover
    have hl : lineCost l ≤ B := by omega
    have ih := takeCount_unique (B - lineCost l) m rest (by simpa using hlt)
      (by omega) (by omega)
    simp [takeCount, hl]
    omega

/-- The loop of lines 147-151, characterized: starting from an
accumulator within budget, it absorbs exactly
`takeCount (limit - res.length) ls` further lines (each with its
newline), and reports the break index exactly when lines remain. -/
theorem sliceAux_eq (limit : Nat) : ∀ (ls : List String) (i : Nat) (res : String),
    res.length ≤ limit →
    sliceAux limit i res ls =
      (res ++ catNL (ls.take (takeCount (limit - res.length) ls)),
       if takeCount (limit - res.length) ls < ls.length
       then some (i + takeCount (limit - res.length) ls) else none)
  | [], i, res, _ => by
    simp [sliceAux, takeCount, catNL, sappend_empty]
  | line :: rest, i, res, h => by
    show (if limit < res.length + line.length + 1 then (res, some i)
          else sliceAux limit (i + 1) (res ++ line ++ "\n") rest) = _
    by_cases hov : limit < res.length + line.length + 1
    · rw [if_pos hov]
      have hc : ¬ lineCost line ≤ limit - res.length := by
        simp [lineCost]; omega
      have ht : takeCount (limit - res.length) (line :: rest) = 0 := by
        simp [takeCount, hc]
      rw [ht]
      simp [catNL, sappend_empty]
    · rw [if_neg hov]
      have hlen : (res ++ line ++ "\n").length = res.length + line.length + 1 := by
        rw [String.length_append, String.length_append]; rfl
      have hrec := sliceAux_eq limit rest (i + 1) (res ++ line ++ "\n") (by omega)
      rw [hrec]
      have hc : lineCost line ≤ limit - res.length := by
        simp [lineCost]; omega
      have ht : takeCount (limit - res.length) (line :: rest)
          = takeCount (limit - res.length - lineCost line) rest + 1 := by
        simp [takeCount, hc]
      have harg : limit - (res ++ line ++ "\n").length
          = limit - res.length - lineCost line := by
        rw [hlen]; simp [lineCost]; omega
      rw [ht, harg]
      set n := takeCount (limit - res.length - lineCost line) rest with hn
      have h1 : res ++ line ++ "\n" ++ catNL (rest.take n)
          = res ++ catNL ((line :: rest).take (n + 1)) := by
        rw [List.take_succ_cons]
        apply String.ext
        simp [String.data_append, catNL_cons_data, List.append_assoc]
      rw [h1]
      by_cases hlt : n < rest.length
      · rw [if_pos hlt, if_pos (by simpa using Nat.succ_lt_succ hlt)]
        have : i + 1 + n = i + (n + 1) := by omega
        rw [this]
      · rw [if_neg hlt, if_neg (by simp; omega)]

/-- Lines 145-153 (the bounded branch, before cursor stringification)
restated: the chunk is the newline-join of the absorbed line range and
the cursor is the index past it, present exactly when that index is
still in range. -/
theorem boundedSlice_eq (B : Nat) (ts : List String) (start : Nat) :
    boundedSlice B ts start =
      (pyJoin "\n" ((ts.drop start).take (takeCount B (ts.drop start))),
       if start + takeCount B (ts.drop start) < ts.length
       then some (start + takeCount B (ts.drop start)) else none) := by
  have h := sliceAux_eq B (ts.drop start) start "" (Nat.zero_le B)
  simp only [show ("" : String).length = 0 from rfl, Nat.sub_zero, sempty_append] at h
  have hiff : (takeCount B (ts.drop start) < (ts.drop start).length)
      ↔ (start + takeCount B (ts.drop start) < ts.length) := by
    rw [List.length_drop]; omega
  have h2 : boundedSlice B ts start
      = (pyDropLast (catNL ((ts.drop start).take (takeCount B (ts.drop start)))),
         if takeCount B (ts.drop start) < (ts.drop start).length
         then some (start + takeCount B (ts.drop start)) else none) :=
    congrArg (fun p : String × Option Nat => (pyDropLast p.1, p.2)) h
  rw [h2, pyDropLast_catNL, if_congr hiff rfl rfl]

/-! ### Round trip between `str(i)` (line 149) and `int(...)` (line 147) -/

theorem digitChar_mem (d : Nat) (h : d < 10) :
    digitChar d ∈ ['0', '1', '2', '3', '4', '5', '6', '7', '8', '9'] := by
  interval_cases d <;> decide

theorem digitChar_val (d : Nat) (h : d < 10) : (digitChar d).toNat - 48 = d := by
  interval_cases d <;> decide

theorem tenDigit_flags (c : Char)
    (h : c ∈ ['0', '1', '2', '3', '4', '5', '6', '7', '8', '9']) :
    isPySpace c = false ∧ (c == '+') = false ∧ (c == '-') = false
      ∧ (c == '_') = false ∧ c.isDigit = true := by
  fin_cases h <;> decide

theorem natDigitsAux_fuel : ∀ (f1 f2 n : Nat), n < f1 → n < f2 →
    natDigitsAux f1 n = natDigitsAux f2 n
  | 0, _, n, h1, _ => by omega
  | _ + 1, 0, n, _, h2 => by omega
  | f1 + 1, f2 + 1, n, h1, h2 => by
    show (if n < 10 then [digitChar n] else natDigitsAux f1 (n / 10) ++ [digitChar (n % 10)])
        = (if n < 10 then [digitChar n] else natDigitsAux f2 (n / 10) ++ [digitChar (n % 10)])
    by_cases h : n < 10
    · rw [if_pos h, if_pos h]
    · rw [if_neg h, if_neg h]
      have hd : n / 10 < n := Nat.div_lt_self (by omega) (by omega)
      rw [natDigitsAux_fuel f1 f2 (n / 10) (by omega) (by omega)]

theorem natDigits_unfold (n : Nat) : natDigitsAux (n + 1) n
    = if n < 10 then [digitChar n]
      else natDigitsAux (n / 10 + 1) (n / 10) ++ [digitChar (n % 10)] := by
  show (if n < 10 then [digitChar n] else natDigitsAux n (n / 10) ++ [digitChar (n % 10)]) = _
  by_cases h : n < 10
  · rw [if_pos h, if_pos h]
  · rw [if_neg h, if_neg h]
    have hd : n / 10 < n := Nat.div_lt_self (by omega) (by omega)
    rw [natDigitsAux_fuel n (n / 10 + 1) (n / 10) (by omega) (by omega)]

theorem natDigits_mem (n : Nat) : ∀ c ∈ natDigitsAux (n + 1) n,
    c ∈ ['0', '1', '2', '3', '4', '5', '6', '7', '8', '9'] := by
  induction n using Nat.strong_induction_on with
  | _ n ih =>
    rw [natDigits_unfold]
    by_cases h : n < 10
    · rw [if_pos h]
      intro c hc
      rw [List.mem_singleton] at hc
      subst hc
      exact digitChar_mem n h
    · rw [if_neg h]
      intro c hc
      rcases List.mem_append.1 hc with h1 | h1
      · exact ih (n / 10) (Nat.div_lt_self (by omega) (by omega)) c h1
      · rw [List.mem_singleton] at h1
        subst h1
        exact digitChar_mem (n % 10) (Nat.mod_lt n (by omega))

theorem natDigits_ne_nil (n : Nat) : natDigitsAux (n + 1) n ≠ [] := by
  rw [natDigits_unfold]
  by_cases h : n < 10
  · rw [if_pos h]; simp
  · rw [if_neg h]; simp

theorem natVal_natDigits (n : Nat) : natVal (natDigitsAux (n + 1) n) = n := by
  induction n using Nat.strong_induction_on with
  | _ n ih =>
    rw [natDigits_unfold]
    by_cases h : n < 10
    · rw [if_pos h]
      simp only [natVal, List.foldl_cons, List.foldl_nil, Nat.mul_zero, Nat.zero_add]
      exact digitChar_val n h
    · rw [if_neg h]
      have hmain := ih (n / 10) (Nat.div_lt_self (by omega) (by omega))
      simp only [natVal, List.foldl_append, List.foldl_cons, List.foldl_nil] at hmain ⊢
      rw [hmain, digitChar_val (n % 10) (Nat.mod_lt n (by omega))]
      omega

theorem dropWhile_of_all_false (l : List Char) (h : ∀ c ∈ l, isPySpace c = false) :
    l.dropWhile isPySpace = l := by
  cases l with
  | nil => rfl
  | cons c rest =>
    rw [List.dropWhile_cons, h c (List.mem_cons_self c rest)]
    simp

theorem trimWS_of_digits (l : List Char)
    (h : ∀ c ∈ l, c ∈ ['0', '1', '2', '3', '4', '5', '6', '7', '8', '9']) :
    trimWS l = l := by
  have hsp : ∀ c ∈ l, isPySpace c = false := fun c hc => (tenDigit_flags c (h c hc)).1
  unfold trimWS
  rw [dropWhile_of_all_false l hsp,
    dropWhile_of_all_false l.reverse (fun c hc => hsp c (List.mem_reverse.1 hc)),
    List.reverse_reverse]

theorem usTail_of_digits : ∀ l : List Char,
    (∀ c ∈ l, c ∈ ['0', '1', '2', '3', '4', '5', '6', '7', '8', '9']) →
    usTail l = some l
  | [], _ => rfl
  | c :: rest, h => by
    obtain ⟨_, _, _, hu, hd⟩ := tenDigit_flags c (h c (List.mem_cons_self c rest))
    unfold usTail
    rw [hu, hd]
    simp only [Bool.false_eq_true, if_false, if_true]
    rw [usTail_of_digits rest (fun d hd' => h d (List.mem_cons_of_mem c hd'))]
    rfl

/-- `int(str(i)) == i`: parsing the stringified cursor recovers the
index. -/
theorem pyIntParse_strOfNat (n : Nat) : pyIntParse (strOfNat n) = some (n : Int) := by
  have hmem := natDigits_mem n
  have htrim : trimWS (strOfNat n).data = natDigitsAux (n + 1) n :=
    trimWS_of_digits _ hmem
  unfold pyIntParse
  rw [htrim]
  rcases hds : natDigitsAux (n + 1) n with _ | ⟨d, rest⟩
  · exact absurd hds (natDigits_ne_nil n)
  · obtain ⟨_, hplus, hminus, _, hd⟩ := tenDigit_flags d (by
      rw [hds] at hmem
      exact hmem d (List.mem_cons_self d rest))
    show (if d == '+' then _ else if d == '-' then _
        else (usDigits (d :: rest)).map (fun ds => (natVal ds : Int))) = some (n : Int)
    rw [hplus, hminus]
    simp only [Bool.false_eq_true, if_false]
    show (if d.isDigit then (usTail rest).map (fun l => d :: l) else none).map
        (fun ds => (natVal ds : Int)) = some (n : Int)
    rw [hd]
    simp only [if_true]
    rw [usTail_of_digits rest (by
      intro c hc
      rw [hds] at hmem
      exact hmem c (List.mem_cons_of_mem d hc))]
    show some ((natVal (d :: rest) : Nat) : Int) = some (n : Int)
    rw [← hds, natVal_natDigits n]

theorem strOfNat_ne_empty (n : Nat) : strOfNat n ≠ "" := by
  intro h
  exact natDigits_ne_nil n (congrArg String.data h)

/-- Feeding `str(i)` back as the cursor resumes at index `i`. -/
theorem cursorIndex_strOfNat (n : Nat) : cursorIndex (some (strOfNat n)) = .ok n := by
  show (if strOfNat n = "" then (Except.ok 0 : Except PyError Nat)
      else match pyIntParse (strOfNat n) with
        | none => Except.error PyError.valueError
        | some m => if m < 0 then Except.error PyError.valueError else Except.ok m.toNat)
    = Except.ok n
  rw [if_neg (strOfNat_ne_empty n), pyIntParse_strOfNat]
  show (if (n : Int) < 0 then Except.error PyError.valueError else Except.ok ((n : Int)).toNat)
      = Except.ok n
  rw [if_neg (by omega), Int.toNat_natCast]

/-! ### `get_transcript_page` branch lemmas -/

/-- Line 142-143: with no limit, or a non-positive one, the whole
transcript is joined and returned, and the cursor argument is never
inspected. -/
theorem page_unbounded (rl : Option Int) (h : ∀ l, rl = some l → l ≤ 0)
    (ts : List String) (cur : Option String) :
    get_transcript_page rl ts cur = .ok (pyJoin "\n" ts, none) := by
  cases rl with
  | none => rfl
  | some l =>
    show (if l ≤ 0 then (Except.ok (pyJoin "\n" ts, none) : Except PyError (String × Option String))
        else match cursorIndex cur with
          | .error e => .error e
          | .ok start => .ok ((boundedSlice l.toNat ts start).1,
              (boundedSlice l.toNat ts start).2.map strOfNat)) = _
    rw [if_pos (h l rfl)]

theorem page_pos (l : Int) (hl : 0 < l) (ts : List String) (cur : Option String) :
    get_transcript_page (some l) ts cur =
      match cursorIndex cur with
      | .error e => .error e
      | .ok start => .ok ((boundedSlice l.toNat ts start).1,
          (boundedSlice l.toNat ts start).2.map strOfNat) := by
  show (if l ≤ 0 then (Except.ok (pyJoin "\n" ts, none) : Except PyError (String × Option String))
      else match cursorIndex cur with
        | .error e => .error e
        | .ok start => .ok ((boundedSlice l.toNat ts start).1,
            (boundedSlice l.toNat ts start).2.map strOfNat)) = _
  rw [if_neg (by omega)]

/-- A bounded call that is fed the stringified index `str(s)` slices
from index `s`. -/
theorem page_at (l : Int) (hl : 0 < l) (ts : List String) (s : Nat) :
    get_transcript_page (some l) ts (some (strOfNat s))
      = .ok ((boundedSlice l.toNat ts s).1, (boundedSlice l.toNat ts s).2.map strOfNat) := by
  rw [page_pos l hl, cursorIndex_strOfNat]

/-- A bounded first call (absent cursor) slices from index 0. -/
theorem page_first (l : Int) (hl : 0 < l) (ts : List String) :
    get_transcript_page (some l) ts none
      = .ok ((boundedSlice l.toNat ts 0).1, (boundedSlice l.toNat ts 0).2.map strOfNat) := by
  rw [page_pos l hl]
  exact rfl

/-! ### Soundness of the pagination round trip -/

theorem take_ne_nil_of_pos (m : Nat) (l : List String) (hm : 1 ≤ m) (hl : l ≠ []) :
    l.take m ≠ [] := by
  cases l with
  | nil => exact absurd rfl hl
  | cons a as =>
    cases m with
    | zero => omega
    | succ k => simp [List.take_succ_cons]

/-- One client call unfolded through `boundedSlice`, final-page case. -/
theorem paginateAux_step_none (B : Nat) (ts : List String) (fuel start : Nat)
    (chunk : String) (hbs : boundedSlice B ts start = (chunk, none)) :
    paginateAux B ts (fuel + 1) start = some [chunk] := by
  have h1 : (boundedSlice B ts start).1 = chunk := by rw [hbs]
  have h2 : (boundedSlice B ts start).2 = none := by rw [hbs]
  show (match (boundedSlice B ts start).2 with
        | none => some [(boundedSlice B ts start).1]
        | some j => if start < j
            then (paginateAux B ts fuel j).map
              (fun rest => (boundedSlice B ts start).1 :: rest)
            else none) = some [chunk]
  rw [h1, h2]

/-- One client call unfolded through `boundedSlice`, truncated case. -/
theorem paginateAux_step_some (B : Nat) (ts : List String) (fuel start : Nat)
    (chunk : String) (j : Nat) (hbs : boundedSlice B ts start = (chunk, some j)) :
    paginateAux B ts (fuel + 1) start
      = if start < j
        then (paginateAux B ts fuel j).map (fun rest => chunk :: rest) else none := by
  have h1 : (boundedSlice B ts start).1 = chunk := by rw [hbs]
  have h2 : (boundedSlice B ts start).2 = some j := by rw [hbs]
  show (match (boundedSlice B ts start).2 with
        | none => some [(boundedSlice B ts start).1]
        | some j => if start < j
            then (paginateAux B ts fuel j).map
              (fun rest => (boundedSlice B ts start).1 :: rest)
            else none)
      = if start < j
        then (paginateAux B ts fuel j).map (fun rest => chunk :: rest) else none
  rw [h1, h2]

theorem paginateAux_sound (B : Nat) (ts : List String)
    (hfit : ∀ l ∈ ts, lineCost l ≤ B) :
    ∀ (fuel start : Nat), ts.length - start < fuel →
    ∃ r, paginateAux B ts fuel start = some r ∧ r ≠ []
      ∧ pyJoin "\n" r = pyJoin "\n" (ts.drop start)
  | 0, _, h => absurd h (by omega)
  | fuel + 1, start, h => by
    have hbs := boundedSlice_eq B ts start
    have hle := takeCount_le B (ts.drop start)
    have hlen : (ts.drop start).length = ts.length - start := List.length_drop _ _
    by_cases hin : start + takeCount B (ts.drop start) < ts.length
    · have hn1 : 1 ≤ takeCount B (ts.drop start) := by
        rcases hds : ts.drop start with _ | ⟨l, rest⟩
        · rw [hds] at hlen
          simp at hlen
          omega
        · have hl : lineCost l ≤ B := hfit l (List.mem_of_mem_drop (by
            rw [hds]; exact List.mem_cons_self l rest))
          show 1 ≤ (if lineCost l ≤ B then takeCount (B - lineCost l) rest + 1 else 0)
          rw [if_pos hl]
          omega
      rw [if_pos hin] at hbs
      have hunf := paginateAux_step_some B ts fuel start
        (pyJoin "\n" ((ts.drop start).take (takeCount B (ts.drop start))))
        (start + takeCount B (ts.drop start)) hbs
      rw [if_pos (by omega : start < start + takeCount B (ts.drop start))] at hunf
      obtain ⟨r, hr, hrne, hrj⟩ :=
        paginateAux_sound B ts hfit fuel (start + takeCount B (ts.drop start)) (by omega)
      refine ⟨pyJoin "\n" ((ts.drop start).take (takeCount B (ts.drop start))) :: r,
        ?_, by simp, ?_⟩
      · rw [hunf, hr]
        exact rfl
      · have hdson : (ts.drop start).drop (takeCount B (ts.drop start))
            = ts.drop (start + takeCount B (ts.drop start)) := by
          rw [List.drop_drop]
        have hsplit : ts.drop start
            = (ts.drop start).take (takeCount B (ts.drop start))
              ++ ts.drop (start + takeCount B (ts.drop start)) := by
          rw [← hdson, List.take_append_drop]
        have hseg_ne : (ts.drop start).take (takeCount B (ts.drop start)) ≠ [] :=
          take_ne_nil_of_pos _ _ hn1 (List.ne_nil_of_length_pos (by omega))
        have hdrop_ne : ts.drop (start + takeCount B (ts.drop start)) ≠ [] :=
          List.ne_nil_of_length_pos (by rw [List.length_drop]; omega)
        conv_rhs => rw [hsplit]
        rw [pyJoin_append _ _ hseg_ne hdrop_ne, ← hrj]
        rcases r with _ | ⟨r0, r'⟩
        · exact absurd rfl hrne
        · rfl
    · rw [if_neg hin] at hbs
      have hunf := paginateAux_step_none B ts fuel start
        (pyJoin "\n" ((ts.drop start).take (takeCount B (ts.drop start)))) hbs
      have hn : takeCount B (ts.drop start) = (ts.drop start).length := by omega
      refine ⟨[pyJoin "\n" ((ts.drop start).take (takeCount B (ts.drop start)))],
        hunf, by simp, ?_⟩
      show pyJoin "\n" ((ts.drop start).take (takeCount B (ts.drop start)))
          = pyJoin "\n" (ts.drop start)
      rw [hn, List.take_length]

/-- The full round trip, at the level of `paginateChunks`. -/
theorem paginateChunks_sound (B : Nat) (ts : List String)
    (hfit : ∀ l ∈ ts, lineCost l ≤ B) :
    (paginateChunks B ts 0).map (pyJoin "\n") = some (pyJoin "\n" ts) := by
  obtain ⟨r, hr, _, hrj⟩ := paginateAux_sound B ts hfit (ts.length + 1 - 0) 0 (by omega)
  unfold paginateChunks
  rw [hr]
  simp only [Option.map_some']
  rw [hrj]
  rfl

/-! ### `breakc` and friends -/

theorem breakc_cons_pos (p : Char → Bool) (c : Char) (cs : List Char) (h : p c = true) :
    breakc p (c :: cs) = ([], c :: cs) := by
  show (if p c = true then ([], c :: cs)
      else (c :: (breakc p cs).1, (breakc p cs).2)) = ([], c :: cs)
  rw [h]
  simp

theorem breakc_cons_neg (p : Char → Bool) (c : Char) (cs : List Char) (h : p c = false) :
    breakc p (c :: cs) = (c :: (breakc p cs).1, (breakc p cs).2) := by
  show (if p c = true then ([], c :: cs)
      else (c :: (breakc p cs).1, (breakc p cs).2)) = (c :: (breakc p cs).1, (breakc p cs).2)
  rw [h]
  simp

theorem breakc_none (p : Char → Bool) : ∀ (l : List Char), (∀ c ∈ l, p c = false) →
    breakc p l = (l, [])
  | [], _ => rfl
  | c :: cs, h => by
    rw [breakc_cons_neg p c cs (h c (List.mem_cons_self c cs)),
      breakc_none p cs (fun d hd => h d (List.mem_cons_of_mem c hd))]

theorem breakc_elim (p : Char → Bool) : ∀ (pre : List Char) (d : Char) (post : List Char),
    (∀ c ∈ pre, p c = false) → p d = true →
    breakc p (pre ++ d :: post) = (pre, d :: post)
  | [], d, post, _, hd => by
    rw [List.nil_append]
    exact breakc_cons_pos p d post hd
  | c :: pre, d, post, h, hd => by
    rw [List.cons_append, breakc_cons_neg p c _ (h c (List.mem_cons_self _ _)),
      breakc_elim p pre d post (fun e he => h e (List.mem_cons_of_mem c he)) hd]

theorem breakDrop_none (d : Char) (l : List Char) (h : ∀ c ∈ l, (c == d) = false) :
    breakDrop d l = (l, []) := by
  unfold breakDrop
  rw [breakc_none _ l h]
  exact rfl

theorem breakDrop_elim (d : Char) (pre post : List Char) (h : ∀ c ∈ pre, (c == d) = false) :
    breakDrop d (pre ++ d :: post) = (pre, post) := by
  unfold breakDrop
  rw [breakc_elim _ pre d post h (by simp)]
  exact rfl

/-! ### `idChar` facts -/

theorem idChar_beq_false (c d : Char) (hc : idChar c = true) (hd : idChar d = false) :
    (c == d) = false := by
  by_cases h : c = d
  · subst h
    rw [hc] at hd
    cases hd
  · exact beq_false_of_ne h

theorem unquotePlusAux_id : ∀ (fuel : Nat) (l : List Char),
    (∀ c ∈ l, idChar c = true) → unquotePlusAux fuel l = l
  | 0, _, _ => rfl
  | _ + 1, [], _ => rfl
  | fuel + 1, c :: rest, h => by
    have hplus : (c == '+') = false :=
      idChar_beq_false c '+' (h c (List.mem_cons_self c rest)) (by decide)
    have hpct : (c == '%') = false :=
      idChar_beq_false c '%' (h c (List.mem_cons_self c rest)) (by decide)
    simp only [unquotePlusAux]
    rw [hplus, hpct]
    simp only [Bool.false_eq_true, if_false]
    rw [unquotePlusAux_id fuel rest (fun d hd => h d (List.mem_cons_of_mem c hd))]

theorem unquotePlus_id (l : List Char) (h : ∀ c ∈ l, idChar c = true) :
    unquotePlus l = l :=
  unquotePlusAux_id l.length l h

theorem dropWhile_slash_id (l : List Char) (h : ∀ c ∈ l, idChar c = true) :
    l.dropWhile (fun c => c == '/') = l := by
  cases l with
  | nil => rfl
  | cons c rest =>
    rw [List.dropWhile_cons,
      idChar_beq_false c '/' (h c (List.mem_cons_self c rest)) (by decide)]
    simp

theorem lstripSlash_slash (vid : String) (h : ∀ c ∈ vid.data, idChar c = true) :
    lstripSlash ⟨'/' :: vid.data⟩ = vid := by
  apply String.ext
  show ('/' :: vid.data).dropWhile (fun c => c == '/') = vid.data
  rw [List.dropWhile_cons]
  simp only [show (('/' : Char) == '/') = true from rfl, if_true]
  exact dropWhile_slash_id vid.data h

/-! ### `urlparse` on the supported shapes -/

theorem splitScheme_https (rest : List Char) :
    splitScheme ("https".data ++ ':' :: rest) = ("https".data, rest) := by
  unfold splitScheme
  rw [breakc_elim (fun c => c == ':') "https".data ':' rest (by decide) (by decide)]
  exact rfl

theorem splitNetloc_elim (host : List Char)
    (hhost : ∀ c ∈ host, (c == '/' || c == '?' || c == '#') = false)
    (tail : List Char) :
    splitNetloc ('/' :: '/' :: (host ++ '/' :: tail)) = (host, '/' :: tail) := by
  show breakc (fun c => c == '/' || c == '?' || c == '#') (host ++ '/' :: tail) = _
  rw [breakc_elim _ host '/' tail hhost (by decide)]

/-- `urlparse` on `https://HOST/REST` with a clean host and no
fragment: the path/query split is the `?` split of `/REST`. -/
theorem urlparse_https (host rest : List Char)
    (hhost : ∀ c ∈ host, (c == '/' || c == '?' || c == '#') = false)
    (hnohash : ∀ c ∈ rest, (c == '#') = false) :
    urlparse ⟨"https".data ++ ':' :: '/' :: '/' :: (host ++ '/' :: rest)⟩
      = ⟨"https", ⟨host⟩, ⟨(breakDrop '?' ('/' :: rest)).1⟩,
        ⟨(breakDrop '?' ('/' :: rest)).2⟩, ""⟩ := by
  have hL : (⟨"https".data ++ ':' :: '/' :: '/' :: (host ++ '/' :: rest)⟩ : String).data
      = "https".data ++ ':' :: '/' :: '/' :: (host ++ '/' :: rest) := rfl
  have e : urlparse ⟨"https".data ++ ':' :: '/' :: '/' :: (host ++ '/' :: rest)⟩
      = ⟨⟨(splitScheme ("https".data ++ ':' :: '/' :: '/' :: (host ++ '/' :: rest))).1⟩,
        ⟨(splitNetloc (splitScheme ("https".data ++ ':' :: '/' :: '/'
            :: (host ++ '/' :: rest))).2).1⟩,
        ⟨(breakDrop '?' (breakDrop '#' (splitNetloc (splitScheme ("https".data ++ ':' :: '/'
            :: '/' :: (host ++ '/' :: rest))).2).2).1).1⟩,
        ⟨(breakDrop '?' (breakDrop '#' (splitNetloc (splitScheme ("https".data ++ ':' :: '/'
            :: '/' :: (host ++ '/' :: rest))).2).2).1).2⟩,
        ⟨(breakDrop '#' (splitNetloc (splitScheme ("https".data ++ ':' :: '/' :: '/'
            :: (host ++ '/' :: rest))).2).2).2⟩⟩ := rfl
  rw [e, splitScheme_https ('/' :: '/' :: (host ++ '/' :: rest))]
  simp only []
  rw [splitNetloc_elim host hhost rest]
  simp only []
  rw [breakDrop_none '#' ('/' :: rest) (by
    intro c hc
    rcases List.mem_cons.1 hc with h | h
    · subst h; decide
    · exact hnohash c h)]

/-! ### Query-string lemmas -/

theorem splitAmp_noamp : ∀ (l : List Char), (∀ c ∈ l, (c == '&') = false) → splitAmp l = [l]
  | [], _ => rfl
  | c :: rest, h => by
    unfold splitAmp
    rw [h c (List.mem_cons_self c rest)]
    simp only [Bool.false_eq_true, if_false]
    rw [splitAmp_noamp rest (fun d hd => h d (List.mem_cons_of_mem c hd))]

theorem splitAmp_elim : ∀ (pre : List Char), (∀ c ∈ pre, (c == '&') = false) →
    ∀ post, splitAmp (pre ++ '&' :: post) = pre :: splitAmp post
  | [], _, post => by
    rw [List.nil_append]
    show (if ('&' : Char) == '&' then [] :: splitAmp post
        else match splitAmp post with
          | [] => [['&']]
          | g :: gs => ('&' :: g) :: gs) = [] :: splitAmp post
    rw [if_pos (show (('&' : Char) == '&') = true from rfl)]
  | c :: pre, h, post => by
    rw [List.cons_append]
    show (if c == '&' then [] :: splitAmp (pre ++ '&' :: post)
        else match splitAmp (pre ++ '&' :: post) with
          | [] => [[c]]
          | g :: gs => (c :: g) :: gs) = (c :: pre) :: splitAmp post
    rw [h c (List.mem_cons_self c pre)]
    simp only [Bool.false_eq_true, if_false]
    rw [splitAmp_elim pre (fun d hd => h d (List.mem_cons_of_mem c hd)) post]

theorem breakEq_elim (pre : List Char) (h : ∀ c ∈ pre, (c == '=') = false)
    (post : List Char) :
    breakEq (pre ++ '=' :: post) = some (pre, post) := by
  unfold breakEq
  rw [breakc_elim _ pre '=' post h (by decide)]

theorem parseField_elim (pre post : List Char) (hpre : ∀ c ∈ pre, (c == '=') = false)
    (hpost : post ≠ []) :
    parseField (pre ++ '=' :: post) = some (⟨unquotePlus pre⟩, ⟨unquotePlus post⟩) := by
  unfold parseField
  rw [breakEq_elim pre hpre post]
  have hie : post.isEmpty = false := by
    cases post with
    | nil => exact absurd rfl hpost
    | cons a as => rfl
  show (if post.isEmpty then none
      else some ((⟨unquotePlus pre⟩ : String), (⟨unquotePlus post⟩ : String)))
    = some (⟨unquotePlus pre⟩, ⟨unquotePlus post⟩)
  rw [hie]
  simp

theorem parseField_v (vid : String) (hne : vid.data ≠ [])
    (hch : ∀ c ∈ vid.data, idChar c = true) :
    parseField ('v' :: '=' :: vid.data) = some ("v", vid) := by
  have h := parseField_elim ['v'] vid.data (by decide) hne
  rw [show (['v'] ++ '=' :: vid.data) = 'v' :: '=' :: vid.data from rfl] at h
  rw [h, show unquotePlus ['v'] = ['v'] from rfl, unquotePlus_id vid.data hch]

theorem parse_qsl_single (vid : String) (hne : vid.data ≠ [])
    (hch : ∀ c ∈ vid.data, idChar c = true) :
    parse_qsl ⟨'v' :: '=' :: vid.data⟩ = [("v", vid)] := by
  unfold parse_qsl
  rw [show (⟨'v' :: '=' :: vid.data⟩ : String).data = 'v' :: '=' :: vid.data from rfl]
  rw [splitAmp_noamp ('v' :: '=' :: vid.data) (by
    intro c hc
    rcases List.mem_cons.1 hc with h | h
    · subst h; decide
    rcases List.mem_cons.1 h with h | h
    · subst h; decide
    · exact idChar_beq_false c '&' (hch c h) (by decide))]
  rw [List.filterMap_cons, parseField_v vid hne hch]
  exact rfl

theorem parse_qsl_extra (vid : String) (hne : vid.data ≠ [])
    (hch : ∀ c ∈ vid.data, idChar c = true) :
    parse_qsl ⟨'v' :: '=' :: (vid.data ++ '&' :: "t=10s".data)⟩
      = ("v", vid) :: parse_qsl "t=10s" := by
  unfold parse_qsl
  rw [show (⟨'v' :: '=' :: (vid.data ++ '&' :: "t=10s".data)⟩ : String).data
      = ('v' :: '=' :: vid.data) ++ '&' :: "t=10s".data from rfl]
  rw [splitAmp_elim ('v' :: '=' :: vid.data) (by
    intro c hc
    rcases List.mem_cons.1 hc with h | h
    · subst h; decide
    rcases List.mem_cons.1 h with h | h
    · subst h; decide
    · exact idChar_beq_false c '&' (hch c h) (by decide)) "t=10s".data]
  rw [List.filterMap_cons, parseField_v vid hne hch]

theorem qsFirst_head_v (q : String) (v : String) (rest : List (String × String))
    (h : parse_qsl q = ("v", v) :: rest) : qsFirst q "v" = some v := by
  unfold qsFirst
  have hf : List.filter (fun p => p.1 == "v") (("v", v) :: rest)
      = ("v", v) :: List.filter (fun p => p.1 == "v") rest :=
    List.filter_cons_of_pos (by exact rfl)
  rw [h, hf]
  rfl

/-! ### `resolveVideoId` branch lemmas -/

theorem resolveVideoId_short (url : String)
    (heq : urlHostname (urlparse url) = some "youtu.be") :
    resolveVideoId url = .ok (lstripSlash (urlparse url).path) := by
  show (if urlHostname (urlparse url) = some "youtu.be"
      then Except.ok (lstripSlash (urlparse url).path)
      else match qsFirst (urlparse url).query "v" with
        | none => Except.error (PyError.invalidUrl url)
        | some v => Except.ok v)
    = Except.ok (lstripSlash (urlparse url).path)
  rw [if_pos heq]

theorem resolveVideoId_query (url : String)
    (hne : urlHostname (urlparse url) ≠ some "youtu.be")
    (v : String) (hv : qsFirst (urlparse url).query "v" = some v) :
    resolveVideoId url = .ok v := by
  show (if urlHostname (urlparse url) = some "youtu.be"
      then Except.ok (lstripSlash (urlparse url).path)
      else match qsFirst (urlparse url).query "v" with
        | none => Except.error (PyError.invalidUrl url)
        | some w => Except.ok w)
    = Except.ok v
  rw [if_neg hne, hv]

theorem resolveVideoId_fail (url : String)
    (hne : urlHostname (urlparse url) ≠ some "youtu.be")
    (hv : qsFirst (urlparse url).query "v" = none) :
    resolveVideoId url = .error (.invalidUrl url) := by
  show (if urlHostname (urlparse url) = some "youtu.be"
      then Except.ok (lstripSlash (urlparse url).path)
      else match qsFirst (urlparse url).query "v" with
        | none => Except.error (PyError.invalidUrl url)
        | some w => Except.ok w)
    = Except.error (PyError.invalidUrl url)
  rw [if_neg hne, hv]

/-! ### The four supported URL shapes -/

theorem resolve_watch_plain (vid : String) (hne : vid.data ≠ [])
    (hch : ∀ c ∈ vid.data, idChar c = true) :
    resolveVideoId ("https://www.youtube.com/watch?v=" ++ vid) = .ok vid := by
  have hstr : ("https://www.youtube.com/watch?v=" ++ vid)
      = ⟨"https".data ++ ':' :: '/' :: '/' :: ("www.youtube.com".data
        ++ '/' :: ("watch".data ++ '?' :: ('v' :: '=' :: vid.data)))⟩ := by
    apply String.ext
    rw [sappend_data]
    rw [show ("https://www.youtube.com/watch?v=" : String).data
        = "https".data ++ ':' :: '/' :: '/' :: ("www.youtube.com".data
          ++ '/' :: ("watch".data ++ '?' :: ('v' :: '=' :: []))) from by decide]
    simp [List.append_assoc]
  have hbd : breakDrop '?' ('/' :: ("watch".data ++ '?' :: ('v' :: '=' :: vid.data)))
      = ('/' :: "watch".data, 'v' :: '=' :: vid.data) := by
    have h2 := breakDrop_elim '?' ('/' :: "watch".data) ('v' :: '=' :: vid.data) (by decide)
    rw [show ('/' :: "watch".data) ++ '?' :: ('v' :: '=' :: vid.data)
        = '/' :: ("watch".data ++ '?' :: ('v' :: '=' :: vid.data)) from rfl] at h2
    exact h2
  have hup : urlparse ("https://www.youtube.com/watch?v=" ++ vid)
      = ⟨"https", "www.youtube.com", ⟨'/' :: "watch".data⟩, ⟨'v' :: '=' :: vid.data⟩, ""⟩ := by
    rw [hstr]
    rw [urlparse_https "www.youtube.com".data ("watch".data ++ '?' :: ('v' :: '=' :: vid.data))
      (by decide)
      (by
        intro c hc
        rcases List.mem_append.1 hc with h | h
        · exact (show ∀ c ∈ "watch".data, (c == '#') = false from by decide) c h
        rcases List.mem_cons.1 h with h | h
        · subst h; decide
        rcases List.mem_cons.1 h with h | h
        · subst h; decide
        rcases List.mem_cons.1 h with h | h
        · subst h; decide
        · exact idChar_beq_false c '#' (hch c h) (by decide))]
    rw [hbd]
  apply resolveVideoId_query
  · rw [hup]
    rw [show urlHostname (⟨"https", "www.youtube.com", ⟨'/' :: "watch".data⟩,
        ⟨'v' :: '=' :: vid.data⟩, ""⟩ : ParsedUrl) = some "www.youtube.com" from rfl]
    decide
  · rw [hup]
    exact qsFirst_head_v _ vid [] (parse_qsl_single vid hne hch)

theorem resolve_watch_extra (vid : String) (hne : vid.data ≠ [])
    (hch : ∀ c ∈ vid.data, idChar c = true) :
    resolveVideoId ("https://www.youtube.com/watch?v=" ++ vid ++ "&t=10s") = .ok vid := by
  have hstr : ("https://www.youtube.com/watch?v=" ++ vid ++ "&t=10s")
      = ⟨"https".data ++ ':' :: '/' :: '/' :: ("www.youtube.com".data
        ++ '/' :: ("watch".data ++ '?' :: ('v' :: '='
          :: (vid.data ++ '&' :: "t=10s".data))))⟩ := by
    apply String.ext
    rw [sappend_data, sappend_data]
    rw [show ("https://www.youtube.com/watch?v=" : String).data
        = "https".data ++ ':' :: '/' :: '/' :: ("www.youtube.com".data
          ++ '/' :: ("watch".data ++ '?' :: ('v' :: '=' :: []))) from by decide,
      show ("&t=10s" : String).data = '&' :: "t=10s".data from by decide]
    simp [List.append_assoc]
  have hbd : breakDrop '?' ('/' :: ("watch".data ++ '?' :: ('v' :: '='
        :: (vid.data ++ '&' :: "t=10s".data))))
      = ('/' :: "watch".data, 'v' :: '=' :: (vid.data ++ '&' :: "t=10s".data)) := by
    have h2 := breakDrop_elim '?' ('/' :: "watch".data)
      ('v' :: '=' :: (vid.data ++ '&' :: "t=10s".data)) (by decide)
    rw [show ('/' :: "watch".data) ++ '?' :: ('v' :: '=' :: (vid.data ++ '&' :: "t=10s".data))
        = '/' :: ("watch".data ++ '?' :: ('v' :: '=' :: (vid.data ++ '&' :: "t=10s".data)))
        from rfl] at h2
    exact h2
  have hup : urlparse ("https://www.youtube.com/watch?v=" ++ vid ++ "&t=10s")
      = ⟨"https", "www.youtube.com", ⟨'/' :: "watch".data⟩,
        ⟨'v' :: '=' :: (vid.data ++ '&' :: "t=10s".data)⟩, ""⟩ := by
    rw [hstr]
    rw [urlparse_https "www.youtube.com".data
      ("watch".data ++ '?' :: ('v' :: '=' :: (vid.data ++ '&' :: "t=10s".data)))
      (by decide)
      (by
        intro c hc
        rcases List.mem_append.1 hc with h | h
        · exact (show ∀ c ∈ "watch".data, (c == '#') = false from by decide) c h
        rcases List.mem_cons.1 h with h | h
        · subst h; decide
        rcases List.mem_cons.1 h with h | h
        · subst h; decide
        rcases List.mem_cons.1 h with h | h
        · subst h; decide
        rcases List.mem_append.1 h with h | h
        · exact idChar_beq_false c '#' (hch c h) (by decide)
        rcases List.mem_cons.1 h with h | h
        · subst h; decide
        · exact (show ∀ c ∈ "t=10s".data, (c == '#') = false from by decide) c h)]
    rw [hbd]
  apply resolveVideoId_query
  · rw [hup]
    rw [show urlHostname (⟨"https", "www.youtube.com", ⟨'/' :: "watch".data⟩,
        ⟨'v' :: '=' :: (vid.data ++ '&' :: "t=10s".data)⟩, ""⟩ : ParsedUrl)
      = some "www.youtube.com" from rfl]
    decide
  · rw [hup]
    exact qsFirst_head_v _ vid (parse_qsl "t=10s") (parse_qsl_extra vid hne hch)

theorem resolve_short_plain (vid : String)
    (hch : ∀ c ∈ vid.data, idChar c = true) :
    resolveVideoId ("https://youtu.be/" ++ vid) = .ok vid := by
  have hstr : ("https://youtu.be/" ++ vid)
      = ⟨"https".data ++ ':' :: '/' :: '/' :: ("youtu.be".data ++ '/' :: vid.data)⟩ := by
    apply String.ext
    rw [sappend_data]
    rw [show ("https://youtu.be/" : String).data
        = "https".data ++ ':' :: '/' :: '/' :: ("youtu.be".data ++ '/' :: []) from by decide]
    simp [List.append_assoc]
  have hup : urlparse ("https://youtu.be/" ++ vid)
      = ⟨"https", "youtu.be", ⟨'/' :: vid.data⟩, "", ""⟩ := by
    rw [hstr]
    rw [urlparse_https "youtu.be".data vid.data (by decide)
      (fun c hc => idChar_beq_false c '#' (hch c hc) (by decide))]
    rw [breakDrop_none '?' ('/' :: vid.data) (by
      intro c hc
      rcases List.mem_cons.1 hc with h | h
      · subst h; decide
      · exact idChar_beq_false c '?' (hch c h) (by decide))]
  have heq : urlHostname (urlparse ("https://youtu.be/" ++ vid)) = some "youtu.be" := by
    rw [hup]
    exact rfl
  refine (resolveVideoId_short _ heq).trans (congrArg Except.ok ?_)
  rw [hup]
  show lstripSlash ⟨'/' :: vid.data⟩ = vid
  exact lstripSlash_slash vid hch

theorem resolve_short_extra (vid : String)
    (hch : ∀ c ∈ vid.data, idChar c = true) :
    resolveVideoId ("https://youtu.be/" ++ vid ++ "?feature=shared") = .ok vid := by
  have hstr : ("https://youtu.be/" ++ vid ++ "?feature=shared")
      = ⟨"https".data ++ ':' :: '/' :: '/' :: ("youtu.be".data
        ++ '/' :: (vid.data ++ '?' :: "feature=shared".data))⟩ := by
    apply String.ext
    rw [sappend_data, sappend_data]
    rw [show ("https://youtu.be/" : String).data
        = "https".data ++ ':' :: '/' :: '/' :: ("youtu.be".data ++ '/' :: []) from by decide,
      show ("?feature=shared" : String).data = '?' :: "feature=shared".data from by decide]
    simp [List.append_assoc]
  have hbd : breakDrop '?' ('/' :: (vid.data ++ '?' :: "feature=shared".data))
      = ('/' :: vid.data, "feature=shared".data) := by
    have h2 := breakDrop_elim '?' ('/' :: vid.data) "feature=shared".data (by
      intro c hc
      rcases List.mem_cons.1 hc with h | h
      · subst h; decide
      · exact idChar_beq_false c '?' (hch c h) (by decide))
    rw [show ('/' :: vid.data) ++ '?' :: "feature=shared".data
        = '/' :: (vid.data ++ '?' :: "feature=shared".data) from rfl] at h2
    exact h2
  have hup : urlparse ("https://youtu.be/" ++ vid ++ "?feature=shared")
      = ⟨"https", "youtu.be", ⟨'/' :: vid.data⟩, "feature=shared", ""⟩ := by
    rw [hstr]
    rw [urlparse_https "youtu.be".data (vid.data ++ '?' :: "feature=shared".data) (by decide)
      (by
        intro c hc
        rcases List.mem_append.1 hc with h | h
        · exact idChar_beq_false c '#' (hch c h) (by decide)
        rcases List.mem_cons.1 h with h | h
        · subst h; decide
        · exact (show ∀ c ∈ "feature=shared".data, (c == '#') = false from by decide) c h)]
    rw [hbd]
  have heq : urlHostname (urlparse ("https://youtu.be/" ++ vid ++ "?feature=shared"))
      = some "youtu.be" := by
    rw [hup]
    exact rfl
  refine (resolveVideoId_short _ heq).trans (congrArg Except.ok ?_)
  rw [hup]
  show lstripSlash ⟨'/' :: vid.data⟩ = vid
  exact lstripSlash_slash vid hch

/-! ### Values produced by `parse_qs` are nonempty -/

theorem unquotePlusAux_ne_nil : ∀ (fuel : Nat) (c : Char) (cs : List Char),
    unquotePlusAux fuel (c :: cs) ≠ []
  | 0, c, cs => by
    show (c :: cs) ≠ []
    simp
  | fuel + 1, c, cs => by
    simp only [unquotePlusAux]
    split
    · simp
    · split
      · split
        · split
          · simp
          · simp
        · simp
      · simp

theorem unquotePlus_ne_nil (c : Char) (cs : List Char) : unquotePlus (c :: cs) ≠ [] :=
  unquotePlusAux_ne_nil _ c cs

theorem parseField_val_ne (f : List Char) (p : String × String)
    (h : parseField f = some p) : p.2.data ≠ [] := by
  unfold parseField at h
  cases hbe : breakEq f with
  | none =>
    rw [hbe] at h
    cases h
  | some nv =>
    obtain ⟨n, v⟩ := nv
    rw [hbe] at h
    cases hv : v with
    | nil =>
      rw [hv] at h
      simp at h
    | cons a as =>
      rw [hv] at h
      simp only [List.isEmpty_cons, Bool.false_eq_true, if_false] at h
      have h2 := congrArg Prod.snd (Option.some.inj h)
      rw [← h2]
      show unquotePlus (a :: as) ≠ []
      exact unquotePlus_ne_nil a as

theorem qsFirst_val_ne (q v : String) (h : qsFirst q "v" = some v) : v.data ≠ [] := by
  unfold qsFirst at h
  cases hh : (List.filter (fun p => p.1 == "v") (parse_qsl q)).head? with
  | none =>
    rw [hh] at h
    cases h
  | some p =>
    rw [hh] at h
    have hp : p ∈ parse_qsl q := List.mem_of_mem_filter (List.mem_of_mem_head? hh)
    obtain ⟨f, _, hpf⟩ := List.mem_filterMap.1 hp
    have hne := parseField_val_ne f p hpf
    have h2 : p.2 = v := Option.some.inj h
    rw [← h2]
    exact hne

theorem pyDropLast_length (s : String) : (pyDropLast s).length = s.length - 1 := by
  show s.data.dropLast.length = s.data.length - 1
  exact List.length_dropLast s.data

/-! ## The claims -/

/-- C1 (amended): round-trip pagination holds whenever every line fits
the positive limit (`len(line) + 1 ≤ B`).  Repeatedly calling the tool
and feeding each returned cursor into the next call — the first call
with an absent cursor, later calls with the stringified break index —
until the cursor is absent, then joining the returned chunks with one
newline between consecutive chunks, reproduces exactly the single
transcript string of an unbounded (`response_limit <= 0`) call.
`paginateChunks` is that client loop, and the last two conjuncts pin
each of its steps to an actual `get_transcript` call. -/
theorem C1_round_trip (rl : Int) (ts : List String) (hrl : 0 < rl)
    (hfit : ∀ l ∈ ts, l.length + 1 ≤ rl.toNat) :
    (paginateChunks rl.toNat ts 0).map (pyJoin "\n") = some (pyJoin "\n" ts)
    ∧ get_transcript_page none ts none = .ok (pyJoin "\n" ts, none)
    ∧ (∀ s : Nat, get_transcript_page (some rl) ts (some (strOfNat s))
        = .ok ((boundedSlice rl.toNat ts s).1, (boundedSlice rl.toNat ts s).2.map strOfNat))
    ∧ get_transcript_page (some rl) ts none
        = .ok ((boundedSlice rl.toNat ts 0).1, (boundedSlice rl.toNat ts 0).2.map strOfNat) :=
  ⟨paginateChunks_sound rl.toNat ts (fun l hl => hfit l hl), rfl,
    fun s => page_at rl hrl ts s, page_first rl hrl ts⟩

/-- C1 witness at limit 10 and lines `["ab", "cd"]`. -/
theorem C1_round_trip_witness :
    (paginateChunks (10 : Int).toNat ["ab", "cd"] 0).map (pyJoin "\n")
      = some (pyJoin "\n" ["ab", "cd"]) :=
  (C1_round_trip 10 ["ab", "cd"] (by decide) (by decide)).1

/-- C1 counterexample: with positive limit 1 and the single line
`"ab"` (cost 3 > 1), the call returns an empty chunk with cursor "0"
equal to the start index it was given, so the repeated-call process
never reaches an absent cursor (`paginateChunks` reports the stuck
run as `none`) and the claimed unconditional round trip fails. -/
theorem C1_counterexample :
    paginateChunks 1 ["ab"] 0 = none
    ∧ get_transcript_page (some 1) ["ab"] none = .ok ("", some "0")
    ∧ get_transcript_page (some 1) ["ab"] (some "0") = .ok ("", some "0") :=
  ⟨rfl, rfl, rfl⟩

/-- C2: the bounded slicing loop characterized.  The chunk is the
newline-join of the lines absorbed from the start index while they
keep fitting (`takeCount`), the cursor (when the walk stopped early)
is the index of the first line that would overflow — the range
`[start, j)` fits the limit and adding line `j` exceeds it — and the
cursor is absent exactly when the walk exhausts the remaining lines;
an absent input cursor parses to start index 0. -/
theorem C2_bounded_slicing (B : Nat) (ts : List String) (start : Nat) :
    boundedSlice B ts start
      = (pyJoin "\n" ((ts.drop start).take (takeCount B (ts.drop start))),
         if start + takeCount B (ts.drop start) < ts.length
         then some (start + takeCount B (ts.drop start)) else none)
    ∧ cursorIndex none = .ok 0
    ∧ ∀ j, (boundedSlice B ts start).2 = some j
        ↔ start ≤ j ∧ j < ts.length ∧ segCost ts start j ≤ B
          ∧ B < segCost ts start (j + 1) := by
  refine ⟨boundedSlice_eq B ts start, rfl, fun j => ?_⟩
  have h2 : (boundedSlice B ts start).2
      = (if start + takeCount B (ts.drop start) < ts.length
        then some (start + takeCount B (ts.drop start)) else none) :=
    congrArg Prod.snd (boundedSlice_eq B ts start)
  rw [h2]
  have hlen : (ts.drop start).length = ts.length - start := List.length_drop _ _
  constructor
  · intro hj
    by_cases hin : start + takeCount B (ts.drop start) < ts.length
    · rw [if_pos hin] at hj
      have hje : j = start + takeCount B (ts.drop start) := (Option.some.inj hj).symm
      subst hje
      refine ⟨by omega, hin, ?_, ?_⟩
      · show costSum ((ts.drop start).take (start + takeCount B (ts.drop start) - start)) ≤ B
        rw [show start + takeCount B (ts.drop start) - start
            = takeCount B (ts.drop start) from by omega]
        exact takeCount_sum B (ts.drop start)
      · show B < costSum ((ts.drop start).take (start + takeCount B (ts.drop start) + 1 - start))
        rw [show start + takeCount B (ts.drop start) + 1 - start
            = takeCount B (ts.drop start) + 1 from by omega]
        exact takeCount_over B (ts.drop start) (by omega)
    · rw [if_neg hin] at hj
      cases hj
  · rintro ⟨hsj, hjl, hfits, hover⟩
    have hm : j - start = takeCount B (ts.drop start) :=
      takeCount_unique B (j - start) (ts.drop start) (by omega)
        (hfits)
        (by
          rw [show j - start + 1 = j + 1 - start from by omega]
          exact hover)
    rw [if_pos (by omega : start + takeCount B (ts.drop start) < ts.length)]
    rw [show start + takeCount B (ts.drop start) = j from by omega]

/-- C2 witness: a concrete slice agreeing with the characterization. -/
theorem C2_bounded_slicing_witness : boundedSlice 5 ["ab", "cd", "ef"] 0 = ("ab", some 1) :=
  ((C2_bounded_slicing 5 ["ab", "cd", "ef"] 0).1).trans (by decide)

/-- C3 (amended): when `response_limit` is `None` or non-positive,
`get_transcript` ignores the caller-supplied cursor entirely and
returns all lines (from index 0, not from the cursor) joined by
newlines, with no continuation cursor. -/
theorem C3_unbounded (rl : Option Int) (h : ∀ l, rl = some l → l ≤ 0)
    (ts : List String) (cur : Option String) :
    get_transcript_page rl ts cur = .ok (pyJoin "\n" ts, none) :=
  page_unbounded rl h ts cur

/-- C3 witness at `response_limit = -2` and cursor "7". -/
theorem C3_unbounded_witness :
    get_transcript_page (some (-2)) ["x", "y"] (some "7")
      = .ok (pyJoin "\n" ["x", "y"], none) :=
  C3_unbounded (some (-2)) (fun l hl => by cases hl; decide) ["x", "y"] (some "7")

/-- C3 counterexample: unbounded mode with cursor "1" on lines
`["a", "b"]` returns the full transcript `"a\nb"`, not the lines from
index 1 (`"b"`) that the claim requires. -/
theorem C3_counterexample :
    get_transcript_page none ["a", "b"] (some "1") = .ok ("a\nb", none)
    ∧ ("a\nb" : String) ≠ "b" :=
  ⟨rfl, by decide⟩

/-- C4: oversized-line edge case.  With a positive limit and a start
index whose line alone (plus its newline) exceeds the limit, the call
returns an empty transcript chunk and a cursor equal to the start
index it was given: the overflow check runs before any append, so no
forward progress is made. -/
theorem C4_oversized (rl : Int) (hrl : 0 < rl) (ts : List String) (start : Nat)
    (h : start < ts.length) (hover : rl.toNat < (ts.get ⟨start, h⟩).length + 1) :
    get_transcript_page (some rl) ts (some (strOfNat start))
      = .ok ("", some (strOfNat start)) := by
  rw [page_at rl hrl ts start]
  have hdrop : ts.drop start = ts.get ⟨start, h⟩ :: ts.drop (start + 1) :=
    List.drop_eq_getElem_cons h
  have hts : takeCount rl.toNat (ts.drop start) = 0 := by
    rw [hdrop]
    show (if lineCost (ts.get ⟨start, h⟩) ≤ rl.toNat
        then takeCount (rl.toNat - lineCost (ts.get ⟨start, h⟩)) (ts.drop (start + 1)) + 1
        else 0) = 0
    rw [if_neg (by simp only [lineCost]; omega)]
  have hbs := boundedSlice_eq rl.toNat ts start
  rw [hts] at hbs
  rw [hbs]
  simp only []
  rw [List.take_zero, if_pos (show start + 0 < ts.length from by omega)]
  exact rfl

/-- C4 witness: limit 1, line "ab" at index 0. -/
theorem C4_oversized_witness :
    get_transcript_page (some 1) ["ab"] (some (strOfNat 0))
      = .ok ("", some (strOfNat 0)) :=
  C4_oversized 1 (by decide) ["ab"] 0 (by decide) (by decide)

/-- C5 (amended): for a positive `response_limit`, a start index at or
past the end of the transcript yields an empty chunk and no cursor.
(In unbounded mode the cursor is ignored and the full transcript is
returned instead — see the counterexample.) -/
theorem C5_out_of_range (rl : Int) (hrl : 0 < rl) (ts : List String) (s : Nat)
    (hs : ts.length ≤ s) :
    get_transcript_page (some rl) ts (some (strOfNat s)) = .ok ("", none) := by
  rw [page_at rl hrl ts s]
  have hdrop : ts.drop s = [] := List.drop_eq_nil_of_le hs
  have hbs := boundedSlice_eq rl.toNat ts s
  rw [hdrop] at hbs
  rw [show takeCount rl.toNat ([] : List String) = 0 from rfl] at hbs
  rw [if_neg (by omega)] at hbs
  rw [hbs]
  exact rfl

/-- C5 witness: limit 3, one line, start index 2. -/
theorem C5_out_of_range_witness :
    get_transcript_page (some 3) ["a"] (some (strOfNat 2)) = .ok ("", none) :=
  C5_out_of_range 3 (by decide) ["a"] 2 (by decide)

/-- C5 counterexample: the claim also covers "every response_limit
setting", but with `response_limit = None` and the out-of-range cursor
"1" on `["a"]` the call returns the full transcript `"a"`, not the
empty chunk the claim requires. -/
theorem C5_counterexample :
    get_transcript_page none ["a"] (some "1") = .ok ("a", none)
    ∧ ("a" : String) ≠ "" :=
  ⟨rfl, by decide⟩

/-- C6: URL resolution.  (i) A URL whose parsed hostname is exactly
`youtu.be` resolves to its path with the leading slashes stripped;
(ii) any other URL resolves to the first value of the `v` query
parameter when present, and (iii) fails with `InvalidUrlError`
carrying the original URL when `v` is absent (which covers the wrong
parameter name `vv`); (iv) for the supported shapes
`https://www.youtube.com/watch?v=ID` and `https://youtu.be/ID`, with
or without an extra query parameter, resolution returns `ID` exactly
for every identifier built from id characters. -/
theorem C6_url_resolution :
    (∀ url, urlHostname (urlparse url) = some "youtu.be" →
        resolveVideoId url = .ok (lstripSlash (urlparse url).path))
    ∧ (∀ url v, urlHostname (urlparse url) ≠ some "youtu.be" →
        qsFirst (urlparse url).query "v" = some v → resolveVideoId url = .ok v)
    ∧ (∀ url, urlHostname (urlparse url) ≠ some "youtu.be" →
        qsFirst (urlparse url).query "v" = none →
        resolveVideoId url = .error (.invalidUrl url))
    ∧ (∀ vid : String, vid.data ≠ [] → (∀ c ∈ vid.data, idChar c = true) →
        resolveVideoId ("https://www.youtube.com/watch?v=" ++ vid) = .ok vid
        ∧ resolveVideoId ("https://www.youtube.com/watch?v=" ++ vid ++ "&t=10s") = .ok vid
        ∧ resolveVideoId ("https://youtu.be/" ++ vid) = .ok vid
        ∧ resolveVideoId ("https://youtu.be/" ++ vid ++ "?feature=shared") = .ok vid) :=
  ⟨resolveVideoId_short, fun url v h hv => resolveVideoId_query url h v hv,
    resolveVideoId_fail,
    fun vid hne hch => ⟨resolve_watch_plain vid hne hch, resolve_watch_extra vid hne hch,
      resolve_short_plain vid hch, resolve_short_extra vid hch⟩⟩

/-- C6 witness: two concrete supported URLs and the wrong-parameter
`vv` failure. -/
theorem C6_url_resolution_witness :
    resolveVideoId ("https://www.youtube.com/watch?v=" ++ "dQw4w9WgXcQ") = .ok "dQw4w9WgXcQ"
    ∧ resolveVideoId ("https://youtu.be/" ++ "xY-9_z") = .ok "xY-9_z"
    ∧ resolveVideoId "https://www.youtube.com/watch?vv=abc"
        = .error (.invalidUrl "https://www.youtube.com/watch?vv=abc") := by
  obtain ⟨h1, h2, h3, h4⟩ := C6_url_resolution
  exact ⟨(h4 "dQw4w9WgXcQ" (by decide) (by decide)).1,
    (h4 "xY-9_z" (by decide) (by decide)).2.2.1,
    h3 "https://www.youtube.com/watch?vv=abc" (by decide) (by decide)⟩

/-- C7 (amended): on every host other than `youtu.be`, an input URL
from which `get_transcript` proceeds past resolution yields a
non-empty identifier (the `v` value survives `parse_qs`, which drops
blank values).  On the `youtu.be` host the identifier is the
slash-stripped path and may be empty — see the counterexample. -/
theorem C7_nonempty_id (url v : String)
    (hhost : urlHostname (urlparse url) ≠ some "youtu.be")
    (hok : resolveVideoId url = .ok v) : v ≠ "" := by
  cases hq : qsFirst (urlparse url).query "v" with
  | none =>
    rw [resolveVideoId_fail url hhost hq] at hok
    cases hok
  | some w =>
    rw [resolveVideoId_query url hhost w hq] at hok
    have hwv : w = v := Except.ok.inj hok
    subst hwv
    intro hcon
    exact qsFirst_val_ne _ _ hq (congrArg String.data hcon)

/-- C7 witness at a concrete watch URL. -/
theorem C7_nonempty_id_witness : ("abc" : String) ≠ "" :=
  C7_nonempty_id "https://www.youtube.com/watch?v=abc" "abc" (by decide) rfl

/-- C7 counterexample: `https://youtu.be/` resolves without error to
the empty identifier, violating the claimed non-emptiness invariant. -/
theorem C7_counterexample : resolveVideoId "https://youtu.be/" = .ok "" := rfl

/-- C8: the language fallback policy.  The candidate list is `["en"]`
for the request `"en"`, and `[lang, "en"]` for every other request;
the computation is total. -/
theorem C8_language_fallback :
    languageCandidates "en" = ["en"]
    ∧ ∀ lang, lang ≠ "en" → languageCandidates lang = [lang, "en"] := by
  refine ⟨rfl, fun lang h => ?_⟩
  unfold languageCandidates
  rw [if_neg h]

/-- C8 witness at "fr". -/
theorem C8_language_fallback_witness : languageCandidates "fr" = ["fr", "en"] :=
  C8_language_fallback.2 "fr" (by decide)

/-- C9: implicit chunk-size bound.  Every successful bounded call
returns a transcript chunk strictly shorter than the positive
`response_limit`: the accumulated text never exceeds the limit and the
final `res[:-1]` trims the trailing newline. -/
theorem C9_chunk_bound (rl : Int) (hrl : 0 < rl) (ts : List String) (cur : Option String)
    (chunk : String) (c : Option String)
    (h : get_transcript_page (some rl) ts cur = .ok (chunk, c)) :
    (chunk.length : Int) < rl := by
  rw [page_pos rl hrl ts cur] at h
  cases hci : cursorIndex cur with
  | error e =>
    rw [hci] at h
    cases h
  | ok start =>
    rw [hci] at h
    have h1 := congrArg Prod.fst (Except.ok.inj h)
    have hchunk : chunk = (boundedSlice rl.toNat ts start).1 := h1.symm
    have hfst : (boundedSlice rl.toNat ts start).1
        = pyJoin "\n" ((ts.drop start).take (takeCount rl.toNat (ts.drop start))) :=
      congrArg Prod.fst (boundedSlice_eq rl.toNat ts start)
    have hsum := takeCount_sum rl.toNat (ts.drop start)
    have hlen : chunk.length
        = costSum ((ts.drop start).take (takeCount rl.toNat (ts.drop start))) - 1 := by
      rw [hchunk, hfst, ← pyDropLast_catNL, pyDropLast_length, catNL_length]
    omega

/-- C9 witness: limit 5 on `["ab", "cd"]`. -/
theorem C9_chunk_bound_witness : (("ab" : String).length : Int) < 5 :=
  C9_chunk_bound 5 (by decide) ["ab", "cd"] none "ab" (some "1") rfl

/-- C10 (amended): with a positive `response_limit`, a *non-empty*
cursor string that is not a valid integer literal makes the call raise
(`ValueError` from `int(...)`); the empty cursor string is falsy in
`next_cursor or 0` and is treated as start-from-zero (see the
counterexample); and with an unset or non-positive limit the cursor is
never parsed, so no cursor value can make the call fail. -/
theorem C10_malformed_cursor :
    (∀ (rl : Int) (ts : List String) (s : String), 0 < rl → s ≠ "" → pyIntParse s = none →
        get_transcript_page (some rl) ts (some s) = .error .valueError)
    ∧ (∀ (rl : Option Int) (ts : List String) (cur : Option String),
        (∀ l, rl = some l → l ≤ 0) →
        get_transcript_page rl ts cur = .ok (pyJoin "\n" ts, none)) := by
  constructor
  · intro rl ts s hrl hne hparse
    rw [page_pos rl hrl ts (some s)]
    have hcur : cursorIndex (some s) = .error .valueError := by
      show (if s = "" then (Except.ok 0 : Except PyError Nat)
          else match pyIntParse s with
            | none => Except.error PyError.valueError
            | some n => if n < 0 then Except.error PyError.valueError
                else Except.ok n.toNat)
        = Except.error PyError.valueError
      rw [if_neg hne, hparse]
    rw [hcur]
  · intro rl ts cur h
    exact page_unbounded rl h ts cur

/-- C10 witness: the cursor "abc" raises under limit 5. -/
theorem C10_malformed_cursor_witness :
    get_transcript_page (some 5) ["a"] (some "abc") = .error .valueError :=
  C10_malformed_cursor.1 5 ["a"] "abc" (by decide) (by decide) (by decide)

/-- C10 counterexample: the empty string is not a valid integer
literal (`int("")` would raise), yet the call does not fail — the
cursor is treated as start-from-zero because `next_cursor or 0`
evaluates to `0` on the falsy empty string. -/
theorem C10_counterexample :
    pyIntParse "" = none
    ∧ get_transcript_page (some 5) ["a"] (some "") = .ok ("a", none) :=
  ⟨rfl, rfl⟩

end YT
